import Mathlib

/-!
Verification of the 2ndCTO analysis pipeline against its specification.

The definitions below are a shallow embedding, in Lean 4, of the JavaScript
source of the repository:

* `calculateRiskScore`  — `src/analysis/` `CodeAnalyzer.calculateRiskScore`
* git-history analysis  — `src/analysis/git-parser.js` (`GitParser`)
* security scanning     — `SecurityScanner` (`loadRules`, `scanFile`,
  `findMatches`), with the regular expressions of the fixed rule set
  embedded as an explicit executable regex AST
* entity extraction     — `ASTParser.extractFunctions` /
  `calculateComplexity` and `EntityExtractor.extractFromFile`
* ingestion             — `src/ingestion/clone.js` (`ingestRepository`,
  `storeFile` and the store loop)

JavaScript numbers are modelled with `Nat`, `Int` and `ℚ` (exact
arithmetic); JS `Math.round` is `jsRound`, JS objects (string-keyed,
insertion-ordered) are association lists, and `Array.prototype.sort`
(stable) is a stable insertion sort.
-/

namespace SecondCTO

/-! ## CodeAnalyzer.calculateRiskScore

JS source:
`let score = summary.critical * 40 + summary.high * 20 + summary.medium * 5 + summary.low;`
`return Math.min(100, score);`
-/

def calculateRiskScore (critical high medium low : Nat) : Nat :=
  min 100 (critical * 40 + high * 20 + medium * 5 + low)

/-! ## JS numeric helpers -/

/-- JS `Math.round` on exact rationals: round half towards `+∞`. -/
def jsRound (x : ℚ) : Int :=
  Int.floor (x + 1 / 2)

/-! ## GitParser: file ownership and bus factor

JS objects keyed by strings preserve insertion order, so they are modelled
as association lists; `obj[k] = (obj[k] || 0) + 1` is `bumpCount`.
-/

structure Commit where
  author : String
  files : List String
deriving DecidableEq

/-- Node `path.extname`, lower-cased: the suffix of the basename from its
last dot, empty when the basename has no dot or starts with its only dot. -/
def extnameLower (file : String) : String :=
  let base := ((file.data.splitOn '/').getLastD []).map Char.toLower
  match base.reverse.span (fun c => c ≠ '.') with
  | (_, []) => ""
  | (suf, _ :: restRev) =>
      if restRev = [] then "" else String.mk ('.' :: suf.reverse)

/-- `GitParser.isCodeFile`: extension membership in the fixed list. -/
def isCodeFile (file : String) : Bool :=
  [".js", ".ts", ".jsx", ".tsx", ".py", ".rb", ".go", ".rs",
   ".java", ".kt", ".scala", ".c", ".cpp", ".h", ".hpp",
   ".php", ".swift", ".m", ".mm"].contains (extnameLower file)

/-- Increment the count stored under key `k`, inserting `(k, 1)` at the end
when absent (JS object insertion order). -/
def bumpCount (m : List (String × Nat)) (k : String) : List (String × Nat) :=
  match m with
  | [] => [(k, 1)]
  | (k0, v) :: rest =>
      if k0 = k then (k0, v + 1) :: rest else (k0, v) :: bumpCount rest k

/-- Record one commit by `author` touching `file` in the
`file -> author -> count` table. -/
def addFileCommit (fa : List (String × List (String × Nat)))
    (file author : String) : List (String × List (String × Nat)) :=
  match fa with
  | [] => [(file, [(author, 1)])]
  | (f, m) :: rest =>
      if f = file then (f, bumpCount m author) :: rest
      else (f, m) :: addFileCommit rest file author

/-- First loop of `calculateFileOwnership`: build the commit-count table,
skipping non-code files. -/
def fileAuthorsOf (commits : List Commit) :
    List (String × List (String × Nat)) :=
  commits.foldl
    (fun fa c =>
      (c.files.filter (fun f => isCodeFile f)).foldl
        (fun fa f => addFileCommit fa f c.author) fa)
    []

def sumCounts (m : List (String × Nat)) : Nat :=
  (m.map (·.2)).sum

/-- Stable insertion into a descending-by-count list: `x` goes before the
first entry whose count is `≤` its own, so earlier entries win ties —
exactly the result of JS's stable `sort((a, b) => b[1] - a[1])`. -/
def insertByCountDesc (x : String × Nat) :
    List (String × Nat) → List (String × Nat)
  | [] => [x]
  | y :: ys =>
      if y.2 ≤ x.2 then x :: y :: ys else y :: insertByCountDesc x ys

/-- Stable descending sort by count (`Array.prototype.sort` is stable). -/
def sortByCountDesc : List (String × Nat) → List (String × Nat)
  | [] => []
  | x :: xs => insertByCountDesc x (sortByCountDesc xs)

structure Ownership where
  primary_author : String
  primary_percentage : Int
  total_commits : Nat
  authors : List (String × Nat)
deriving DecidableEq

/-- Second loop of `calculateFileOwnership`: per-file totals, authors
sorted by commit count, primary author and rounded percentage. -/
def mkOwnership (m : List (String × Nat)) : Ownership :=
  let total := sumCounts m
  match sortByCountDesc m with
  | [] => ⟨"", 0, 0, []⟩
  | (a, c) :: rest =>
      ⟨a, jsRound ((c : ℚ) / (total : ℚ) * 100), total, (a, c) :: rest⟩

/-- `GitParser.calculateFileOwnership`. -/
def calculateFileOwnership (commits : List Commit) :
    List (String × Ownership) :=
  (fileAuthorsOf commits).map (fun fm => (fm.1, mkOwnership fm.2))

structure BusFactorResult where
  score : ℚ
  riskLevel : String
deriving DecidableEq

/-- The greedy accumulation loop of `calculateBusFactor`. The JS guard
`filesCovered >= totalFiles * 0.5` is exact for these magnitudes and is
the integer test `2 * filesCovered ≥ totalFiles`. Returns
`(filesCovered, busFactor)`. -/
def busLoop (totalFiles : Nat) :
    List (String × Nat) → Nat → Nat → Nat × Nat
  | [], covered, bf => (covered, bf)
  | (_, c) :: rest, covered, bf =>
      if totalFiles ≤ 2 * (covered + c) then (covered + c, bf + 1)
      else busLoop totalFiles rest (covered + c) (bf + 1)

/-- `GitParser.calculateBusFactor` (the fields the claims are about:
`score` and `riskLevel`). -/
def calculateBusFactor (fileOwnership : List (String × Ownership)) :
    BusFactorResult :=
  let files := fileOwnership.map (·.2)
  let totalFiles := files.length
  if totalFiles = 0 then ⟨0, "UNKNOWN"⟩
  else
    let authorFileCount :=
      files.foldl (fun m f => bumpCount m f.primary_author) []
    let sortedAuthors := sortByCountDesc authorFileCount
    let res := busLoop totalFiles sortedAuthors 0 0
    let coverage : ℚ := (res.1 : ℚ) / (totalFiles : ℚ)
    let busFactor : ℚ :=
      (res.2 : ℚ) +
        (if coverage < 3 / 5 then (1 / 2 - (coverage - 1 / 2)) * 2 else 0)
    let riskLevel :=
      if busFactor ≤ 3 / 2 then "CRITICAL"
      else if busFactor ≤ 5 / 2 then "HIGH"
      else if busFactor ≤ 4 then "MEDIUM"
      else "LOW"
    ⟨(jsRound (busFactor * 10) : ℚ) / 10, riskLevel⟩

/-- The `filesCovered` value at which the greedy loop of
`calculateBusFactor` stops. -/
def busLoopCovered (fileOwnership : List (String × Ownership)) : Nat :=
  (busLoop (fileOwnership.map (·.2)).length
    (sortByCountDesc
      ((fileOwnership.map (·.2)).foldl
        (fun m f => bumpCount m f.primary_author) []))
    0 0).1

/-- The `coverage` fraction of `calculateBusFactor`. -/
def coverageQ (fileOwnership : List (String × Ownership)) : ℚ :=
  (busLoopCovered fileOwnership : ℚ) /
    ((fileOwnership.map (·.2)).length : ℚ)

/-! ## SecurityScanner: regular expressions

The ten rule patterns of `SecurityScanner.loadRules` are JS regex
literals. They are embedded as an executable regex AST with
Brzozowski-derivative matching; `rtest` is JS `RegExp.prototype.test`
(unanchored search). ASCII case folding models the `/i` flag, and `\s`,
`\w` and `.` are modelled on their ASCII/line-terminator cores, which is
exact on the inputs the claims are about. -/

inductive Rgx where
  | emp : Rgx
  | eps : Rgx
  | cls (p : Char → Bool) : Rgx
  | cat (r1 r2 : Rgx) : Rgx
  | alt (r1 r2 : Rgx) : Rgx
  | star (r : Rgx) : Rgx

def nullable : Rgx → Bool
  | .emp => false
  | .eps => true
  | .cls _ => false
  | .cat r1 r2 => nullable r1 && nullable r2
  | .alt r1 r2 => nullable r1 || nullable r2
  | .star _ => true

def mkAlt : Rgx → Rgx → Rgx
  | .emp, r => r
  | r, .emp => r
  | r1, r2 => .alt r1 r2

def mkCat : Rgx → Rgx → Rgx
  | .emp, _ => .emp
  | _, .emp => .emp
  | .eps, r => r
  | r, .eps => r
  | r1, r2 => .cat r1 r2

def derivR (r : Rgx) (c : Char) : Rgx :=
  match r with
  | .emp => .emp
  | .eps => .emp
  | .cls p => if p c then .eps else .emp
  | .cat r1 r2 =>
      if nullable r1 then mkAlt (mkCat (derivR r1 c) r2) (derivR r2 c)
      else mkCat (derivR r1 c) r2
  | .alt r1 r2 => mkAlt (derivR r1 c) (derivR r2 c)
  | .star r1 => mkCat (derivR r1 c) (.star r1)

/-- Does some prefix of `s` belong to the language of `r`? -/
def startMatch : Rgx → List Char → Bool
  | r, [] => nullable r
  | r, c :: cs => nullable r || startMatch (derivR r c) cs

/-- JS `pattern.test(s)`: does any substring of `s` match `r`? -/
def rtest (r : Rgx) : List Char → Bool
  | [] => nullable r
  | c :: cs => startMatch r (c :: cs) || rtest r cs

def lowerAscii (c : Char) : Char :=
  if 65 ≤ c.toNat && c.toNat ≤ 90 then Char.ofNat (c.toNat + 32) else c

def isWsChar (c : Char) : Bool :=
  c == ' ' || c == '\t' || c == '\n' || c == '\r' ||
    c.toNat == 12 || c.toNat == 11

def squote : Char := Char.ofNat 39
def dquote : Char := Char.ofNat 34
def btick : Char := Char.ofNat 96

def isQuoteChar (c : Char) : Bool :=
  c == squote || c == dquote || c == btick

def isWordChar (c : Char) : Bool :=
  (97 ≤ (lowerAscii c).toNat && (lowerAscii c).toNat ≤ 122) ||
    (48 ≤ c.toNat && c.toNat ≤ 57) || c == '_'

def isKeyChar (c : Char) : Bool :=
  isWordChar c || c == '-'

def chr (c : Char) : Rgx := .cls (fun x => x == c)

def clsChain (ps : List (Char → Bool)) : Rgx :=
  ps.foldr (fun p r => .cat (.cls p) r) .eps

/-- Case-sensitive string literal. -/
def litCS (s : String) : Rgx :=
  clsChain (s.data.map (fun c x => x == c))

/-- Case-insensitive string literal (`/i` flag). -/
def litCI (s : String) : Rgx :=
  clsChain (s.data.map (fun c x => lowerAscii x == lowerAscii c))

/-- JS `.`: any char except a line terminator. -/
def dotC : Rgx :=
  .cls (fun c => !(c == '\n' || c == '\r' || c.toNat == 8232 || c.toNat == 8233))

def wsStar : Rgx := .star (.cls isWsChar)

def plusR (r : Rgx) : Rgx := .cat r (.star r)

/-- `r{n,}` as `r^n · r*`. -/
def atLeast : Nat → Rgx → Rgx
  | 0, r => .star r
  | n + 1, r => .cat r (atLeast n r)

def catList (rs : List Rgx) : Rgx :=
  rs.foldr .cat .eps

def quoteCls : Rgx := .cls isQuoteChar
def notQuoteCls : Rgx := .cls (fun c => !isQuoteChar c)

/-- Rule `SECRET_API_KEY`, from the literal
`['"`]([a-zA-Z0-9_-]{20,})['"`].*api.*key|api.*key.*['"`]([a-zA-Z0-9_-]{20,})['"`]`
with `/i`. -/
def secretApiKeyPattern : Rgx :=
  .alt
    (catList [quoteCls, atLeast 20 (.cls isKeyChar), quoteCls, .star dotC,
      litCI "api", .star dotC, litCI "key"])
    (catList [litCI "api", .star dotC, litCI "key", .star dotC,
      quoteCls, atLeast 20 (.cls isKeyChar), quoteCls])

/-- Rule `HARDCODED_PASSWORD`, from the literal
`password\s*[=:]\s*['"`]([^'"`]{4,})['"`]` with `/i`. -/
def hardcodedPasswordPattern : Rgx :=
  catList [litCI "password", wsStar, .cls (fun c => c == '=' || c == ':'),
    wsStar, quoteCls, atLeast 4 notQuoteCls, quoteCls]

/-- Rule `SQL_INJECTION`, from the literal
`(query|execute|exec)\s*\(\s*[`"'].*\$\x7b|query|execute|exec\s*\(\s*[^)]*\+`
with `/i`. The top-level alternation has four branches; the second and
third are the bare words `query` and `execute`. -/
def sqlInjectionPattern : Rgx :=
  .alt
    (catList [.alt (litCI "query") (.alt (litCI "execute") (litCI "exec")),
      wsStar, chr '(', wsStar, quoteCls, .star dotC, chr '$', chr (Char.ofNat 123)])
    (.alt (litCI "query")
      (.alt (litCI "execute")
        (catList [litCI "exec", wsStar, chr '(', wsStar,
          .star (.cls (fun c => c ≠ ')')), chr '+'])))

/-- Body of rule `EVAL_USAGE` after the word boundary: `eval\s*\(`
(case-sensitive). -/
def evalBodyPattern : Rgx :=
  catList [litCS "eval", wsStar, chr '(']

/-- Search for `\beval\s*\(`: the `\b` is modelled by tracking the
preceding character, since the body starts with the word char `e`. -/
def evalScan : Option Char → List Char → Bool
  | _, [] => false
  | prev, c :: cs =>
      ((match prev with
        | none => true
        | some p => !isWordChar p) && startMatch evalBodyPattern (c :: cs))
      || evalScan (some c) cs

def evalUsageTest (s : List Char) : Bool := evalScan none s

/-- Rule `INSECURE_RANDOM`, from `Math\.random\s*\(\)` (case-sensitive). -/
def insecureRandomPattern : Rgx :=
  catList [litCS "Math.random", wsStar, litCS "()"]

/-- Rule `DEBUGGER_STATEMENT`, from `debugger\s*;` (case-sensitive). -/
def debuggerPattern : Rgx :=
  catList [litCS "debugger", wsStar, chr ';']

/-- Rule `TODO_SECURITY`, from `\/\/.*TODO.*(?:security|auth|encrypt|hash)`
with `/i`. -/
def todoSecurityPattern : Rgx :=
  catList [litCS "//", .star dotC, litCI "TODO", .star dotC,
    .alt (litCI "security") (.alt (litCI "auth")
      (.alt (litCI "encrypt") (litCI "hash")))]

/-- Rule `HTTP_NOT_HTTPS`, from `['"`]http:\/\/[^'"`]+['"`]` with `/i`. -/
def httpNotHttpsPattern : Rgx :=
  catList [quoteCls, litCI "http://", plusR notQuoteCls, quoteCls]

/-- Rule `DISABLED_SSL_VERIFICATION`, from
`rejectUnauthorized\s*:\s*false|NODE_TLS_REJECT_UNAUTHORIZED.*0` with `/i`. -/
def disabledSslPattern : Rgx :=
  .alt
    (catList [litCI "rejectUnauthorized", wsStar, chr ':', wsStar, litCI "false"])
    (catList [litCI "NODE_TLS_REJECT_UNAUTHORIZED", .star dotC, chr '0'])

/-- Rule `BACKDOOR_SHELL`, from
`(child_process|exec|spawn|execSync)\s*\(\s*[`"'].*(?:curl|wget|nc|bash|sh|python)`
with `/i`. -/
def backdoorShellPattern : Rgx :=
  catList [.alt (litCI "child_process")
      (.alt (litCI "exec") (.alt (litCI "spawn") (litCI "execSync"))),
    wsStar, chr '(', wsStar, quoteCls, .star dotC,
    .alt (litCI "curl") (.alt (litCI "wget") (.alt (litCI "nc")
      (.alt (litCI "bash") (.alt (litCI "sh") (litCI "python")))))]

/-! ## SecurityScanner: rules, findMatches, scanFile -/

structure SecRule where
  id : String
  name : String
  severity : String
  category : String
  test : List Char → Bool

/-- `SecurityScanner.loadRules`: the fixed rule set, in source order. -/
def loadRules : List SecRule :=
  [⟨"SECRET_API_KEY", "Potential API Key Exposure", "high", "secret",
      rtest secretApiKeyPattern⟩,
   ⟨"HARDCODED_PASSWORD", "Hardcoded Password", "critical", "secret",
      rtest hardcodedPasswordPattern⟩,
   ⟨"SQL_INJECTION", "Potential SQL Injection", "high", "vulnerability",
      rtest sqlInjectionPattern⟩,
   ⟨"EVAL_USAGE", "Dangerous eval() Usage", "high", "vulnerability",
      evalUsageTest⟩,
   ⟨"INSECURE_RANDOM", "Insecure Randomness", "medium", "vulnerability",
      rtest insecureRandomPattern⟩,
   ⟨"DEBUGGER_STATEMENT", "Debugger Statement in Code", "low", "misconfiguration",
      rtest debuggerPattern⟩,
   ⟨"TODO_SECURITY", "Security TODO Comment", "medium", "risk",
      rtest todoSecurityPattern⟩,
   ⟨"HTTP_NOT_HTTPS", "Insecure HTTP URL", "medium", "misconfiguration",
      rtest httpNotHttpsPattern⟩,
   ⟨"DISABLED_SSL_VERIFICATION", "SSL Verification Disabled", "high", "misconfiguration",
      rtest disabledSslPattern⟩,
   ⟨"BACKDOOR_SHELL", "Potential Backdoor (shell execution)", "critical", "backdoor",
      rtest backdoorShellPattern⟩]

/-- JS `content.split(Char.ofNat 10)` on char lists. -/
def splitLinesAux : List Char → List Char → List (List Char)
  | [], cur => [cur.reverse]
  | c :: cs, cur =>
      if c = '\n' then cur.reverse :: splitLinesAux cs []
      else splitLinesAux cs (c :: cur)

def splitLines (content : List Char) : List (List Char) :=
  splitLinesAux content []

/-- JS `String.prototype.trim` (ASCII whitespace core). -/
def jsTrim (s : List Char) : List Char :=
  ((s.dropWhile isWsChar).reverse.dropWhile isWsChar).reverse

/-- JS `hay.includes(needle)`. -/
def containsSub (needle : List Char) : List Char → Bool
  | [] => needle.isEmpty
  | c :: cs => needle.isPrefixOf (c :: cs) || containsSub needle cs

structure MatchRec where
  line : Nat
  text : List Char
  confidence : ℚ
deriving DecidableEq

/-- The confidence computation inside `findMatches`: base 0.8, −0.2 for a
test/spec marker, −0.3 for a `//` comment, −0.3 for a `*` comment,
clamped below at 0.3 (exact rational arithmetic). -/
def lineConfidence (line : List Char) : ℚ :=
  let c0 : ℚ := 8 / 10
  let c1 := if containsSub "test".data line || containsSub "spec".data line
    then c0 - 2 / 10 else c0
  let c2 := if ("//".data).isPrefixOf (jsTrim line) then c1 - 3 / 10 else c1
  let c3 := if ("*".data).isPrefixOf (jsTrim line) then c2 - 3 / 10 else c2
  max (3 / 10) c3

/-- `SecurityScanner.findMatches`: test every line, record 1-indexed line
number, trimmed evidence truncated to 100 chars, and confidence. -/
def findMatches (test : List Char → Bool) (content : List Char) :
    List MatchRec :=
  (splitLines content).enum.foldl
    (fun acc p =>
      acc ++ (if test p.2
        then [⟨p.1 + 1, (jsTrim p.2).take 100, lineConfidence p.2⟩]
        else []))
    []

structure Finding where
  severity : String
  category : String
  line_number : Nat
  description : String
  evidence : List Char
  confidence : ℚ
  rule_id : String
  status : String
deriving DecidableEq

def mkFinding (ruleName severity category ruleId : String) (m : MatchRec) :
    Finding :=
  ⟨severity, category, m.line, ruleName, m.text, m.confidence, ruleId, "open"⟩

/-- `SecurityScanner.scanFile` (the per-finding fields that do not depend
on the repo/file identifiers). -/
def scanFile (rules : List SecRule) (content : List Char) : List Finding :=
  rules.foldl
    (fun acc rule =>
      acc ++ (findMatches rule.test content).map
        (mkFinding rule.name rule.severity rule.category rule.id))
    []

/-! ### Exception-aware scan

`scanFile`/`findMatches` contain no `try`/`catch`: the variant below makes
a potential exception of a rule's match evaluation explicit (`Except`) and
propagates it exactly as the JS control flow would. -/

structure SecRuleE where
  id : String
  name : String
  severity : String
  category : String
  test : List Char → Except String Bool

def findMatchesE (test : List Char → Except String Bool)
    (content : List Char) : Except String (List MatchRec) :=
  (splitLines content).enum.foldlM
    (fun acc p => do
      let b ← test p.2
      pure (acc ++ (if b
        then [⟨p.1 + 1, (jsTrim p.2).take 100, lineConfidence p.2⟩]
        else [])))
    []

def scanFileE (rules : List SecRuleE) (content : List Char) :
    Except String (List Finding) :=
  rules.foldlM
    (fun acc rule => do
      let ms ← findMatchesE rule.test content
      pure (acc ++ ms.map
        (mkFinding rule.name rule.severity rule.category rule.id)))
    []

/-- A rule whose match evaluation never faults, as all ten built-in rules
(valid regex literals, total matching). -/
def liftRule (r : SecRule) : SecRuleE :=
  ⟨r.id, r.name, r.severity, r.category, fun s => .ok (r.test s)⟩

/-! ## ASTParser / EntityExtractor

A tree-sitter syntax node is modelled by its node type, its start/end row
(0-indexed, as `startPosition.row` / `endPosition.row`) and its children.
The children list is represented by the isomorphic `TSForest` type so
that every recursion over trees is structural (hence executable in
proofs by `decide`). `getFunctionName` / `getSignature` slice the source
text by byte offset and play no role in the claims, so the byte offsets
are not modelled. -/

mutual

inductive TSNode where
  | mk (kind : String) (startRow endRow : Nat) (children : TSForest)

inductive TSForest where
  | nil : TSForest
  | cons (hd : TSNode) (tl : TSForest) : TSForest

end

def TSNode.kind : TSNode → String
  | .mk t _ _ _ => t

def TSNode.startRow : TSNode → Nat
  | .mk _ s _ _ => s

def TSNode.endRow : TSNode → Nat
  | .mk _ _ e _ => e

def TSNode.children : TSNode → TSForest
  | .mk _ _ _ cs => cs

/-- JS `array.some(p)` over a forest of children. -/
def forestAny (p : TSNode → Bool) : TSForest → Bool
  | .nil => false
  | .cons c cs => p c || forestAny p cs

mutual

/-- A successfully parsed tree: every node spans forward
(`startPosition.row ≤ endPosition.row`, an invariant of tree-sitter
parse results). -/
def wfNode : TSNode → Bool
  | .mk _ s e cs => decide (s ≤ e) && wfForest cs

def wfForest : TSForest → Bool
  | .nil => true
  | .cons c cs => wfNode c && wfForest cs

end

/-- The per-node increment inside `calculateComplexity`: conditionals,
loops, `switch`, `catch`, and `binary_expression` nodes with a `||` or
`&&` child each add 1. -/
def complexityBump (t : String) (cs : TSForest) : Nat :=
  (if t = "if_statement" || t = "conditional_expression" then 1 else 0) +
  (if t = "for_statement" || t = "while_statement" || t = "do_statement"
    then 1 else 0) +
  (if t = "switch_statement" then 1 else 0) +
  (if t = "catch_clause" then 1 else 0) +
  (if t = "binary_expression" &&
      forestAny (fun c => c.kind = "||" || c.kind = "&&") cs
    then 1 else 0)

mutual

/-- Sum of the increments over a whole subtree (the `traverse` of
`calculateComplexity` visits the node itself and every descendant). -/
def subtreeBumps : TSNode → Nat
  | .mk t _ _ cs => complexityBump t cs + forestBumps cs

def forestBumps : TSForest → Nat
  | .nil => 0
  | .cons c cs => subtreeBumps c + forestBumps cs

end

/-- `ASTParser.calculateComplexity`: base 1 plus the subtree increments. -/
def calculateComplexity (n : TSNode) : Nat :=
  1 + subtreeBumps n

structure FnInfo where
  kind : String
  start_line : Nat
  end_line : Nat
  complexity : Option Nat
deriving DecidableEq

def isFunctionKind (t : String) : Bool :=
  t = "function_declaration" || t = "function" || t = "arrow_function" ||
    t = "method_definition"

def isClassKind (t : String) : Bool :=
  t = "class_declaration" || t = "class"

mutual

/-- `ASTParser.extractFunctions`: pre-order traversal pushing a function
record (1-indexed rows, complexity) for function-like nodes and a class
record (no complexity field) for class-like nodes, then visiting the
children in order. -/
def extractFunctionsNode : TSNode → List FnInfo
  | .mk t s e cs =>
      (if isFunctionKind t
        then [⟨"function", s + 1, e + 1,
          some (calculateComplexity (.mk t s e cs))⟩]
        else []) ++
      (if isClassKind t then [⟨"class", s + 1, e + 1, none⟩] else []) ++
      extractForest cs

def extractForest : TSForest → List FnInfo
  | .nil => []
  | .cons c cs => extractFunctionsNode c ++ extractForest cs

end

structure EntityRec where
  kind : String
  start_line : Nat
  end_line : Nat
  complexity_score : Nat
deriving DecidableEq

/-- `EntityExtractor.extractFromFile`: each extracted record is stored
with `complexity_score = func.complexity || 1` (JS: `0`, like a missing
field, falls back to 1). -/
def extractFromFile (root : TSNode) : List EntityRec :=
  (extractFunctionsNode root).map
    (fun f =>
      ⟨f.kind, f.start_line, f.end_line,
        match f.complexity with
        | some k => if k = 0 then 1 else k
        | none => 1⟩)

/-! ## Ingestion (`src/ingestion/clone.js`)

`ingestRepository` is a chain of awaited effectful steps inside one
`try`/`catch`. The model makes each step's success explicit in an
environment and threads one bit of state: whether the temporary clone
directory currently exists. Steps that swallow their own errors
(`readFile`, `storeFile`, the final `fs.rm`) cannot throw; `git clone`
removes its own partially-created target on failure. -/

structure IngestEnv where
  repoFound : Bool
  cloneOk : Bool
  listOk : Bool
  rmOk : Bool
deriving DecidableEq

inductive IngestOutcome where
  | ok : IngestOutcome
  | error (msg : String) : IngestOutcome
deriving DecidableEq

structure IngestResult where
  outcome : IngestOutcome
  cloneDirPresent : Bool
deriving DecidableEq

/-- Body of the `try` block of `ingestRepository`: returns the thrown
error or success, paired with whether the clone directory exists at that
exit. The final cleanup `fs.rm` is attempted only at the end of the
`try` block, and its own failure is swallowed. -/
def ingestTry (env : IngestEnv) : Except String Unit × Bool :=
  if env.repoFound = false then (.error "Repository not found", false)
  else
    match (if env.cloneOk then .ok () else .error "clone failed" :
        Except String Unit) with
    | .error e => (.error e, false)
    | .ok _ =>
        if env.listOk = false then (.error "glob failed", true)
        else (.ok (), if env.rmOk then false else true)

/-- `ingestRepository`: the `catch` block updates the repository status
and rethrows — it does not remove the clone directory. -/
def ingestRepository (env : IngestEnv) : IngestResult :=
  match ingestTry env with
  | (.ok _, dir) => ⟨.ok, dir⟩
  | (.error e, dir) => ⟨.error e, dir⟩

structure SrcFile where
  path : String
  content : Option (List Char)
deriving DecidableEq

structure StoredFile where
  idx : Nat
  path : String
  content : List Char
deriving DecidableEq

/-- The store loop of `ingestRepository` with `storeFile`: a file whose
read failed (`null` content) or whose content is falsy-empty or longer
than 100000 chars is skipped (`continue`); otherwise `storeFile` stores
`content.substring(0, 50000)`. -/
def storeLoop (files : List SrcFile) : List StoredFile :=
  files.enum.foldl
    (fun acc p =>
      acc ++
        (match p.2.content with
        | none => []
        | some c =>
            if c.length = 0 ∨ 100000 < c.length then []
            else [⟨p.1, p.2.path, c.take 50000⟩]))
    []

/-! ## Concrete inputs used by the scenario claims -/

/-- The spec scenario line `const password = 'admin12345';`
(single quotes written via their code point). -/
def passwordTestLine : List Char :=
  "const password = ".data ++ [squote] ++ "admin12345".data ++ [squote] ++
    ";".data

/-- A line mentioning a variable named `repoQueue` (and neither `query`
nor `execute` as a substring). -/
def repoQueueLine : List Char :=
  "const repoQueue = [];".data

/-- A hypothetical rule whose match evaluation faults on every line. -/
def faultingRule : SecRuleE :=
  ⟨"FAULTY_RULE", "Rule whose match evaluation faults", "low",
    "misconfiguration", fun _ => .error "match fault"⟩

/-- The `EVAL_USAGE` rule on its own (the fourth entry of `loadRules`). -/
def evalUsageRule : SecRule :=
  ⟨"EVAL_USAGE", "Dangerous eval() Usage", "high", "vulnerability",
    evalUsageTest⟩

end SecondCTO

namespace SecondCTO

/-- C1: the aggregate risk score is `min 100 (40c + 20h + 5m + l)`, an
integer in `[0, 100]`, monotone in each severity count, and a summary of
3 critical findings and no others scores exactly 100. -/
theorem riskScore_formula_bounds_monotone :
    (∀ c h m l : Nat,
        calculateRiskScore c h m l = min 100 (c * 40 + h * 20 + m * 5 + l) ∧
        calculateRiskScore c h m l ≤ 100) ∧
    (∀ c c' h h' m m' l l' : Nat, c ≤ c' → h ≤ h' → m ≤ m' → l ≤ l' →
        calculateRiskScore c h m l ≤ calculateRiskScore c' h' m' l') ∧
    calculateRiskScore 3 0 0 0 = 100 := by
  refine ⟨fun c h m l => ⟨rfl, min_le_left _ _⟩, ?_, by decide⟩
  intro c c' h h' m m' l l' hc hh hm hl
  unfold calculateRiskScore
  exact min_le_min le_rfl (by
    have := Nat.mul_le_mul_right 40 hc
    have := Nat.mul_le_mul_right 20 hh
    have := Nat.mul_le_mul_right 5 hm
    omega)

/-- Witness for `riskScore_formula_bounds_monotone` at concrete counts. -/
theorem riskScore_formula_bounds_monotone_witness :
    calculateRiskScore 1 2 3 4 ≤ calculateRiskScore 2 2 4 5 :=
  riskScore_formula_bounds_monotone.2.1 1 2 2 2 3 4 4 5
    (by decide) (by decide) (by decide) (by decide)

/-! ## Helper lemmas: accumulating folds and `enum` -/

theorem mem_foldl_append {α β : Type} (g : β → List α) (l : List β)
    (acc : List α) (x : α) :
    x ∈ l.foldl (fun a b => a ++ g b) acc ↔ x ∈ acc ∨ ∃ b ∈ l, x ∈ g b := by
  induction l generalizing acc with
  | nil => simp
  | cons b bs ih =>
      simp only [List.foldl_cons, ih, List.mem_append, List.mem_cons]
      constructor
      · rintro (⟨h | h⟩ | ⟨b', hb', hx⟩)
        · exact Or.inl h
        · exact Or.inr ⟨b, Or.inl rfl, h⟩
        · exact Or.inr ⟨b', Or.inr hb', hx⟩
      · rintro (h | ⟨b', hb' | hb', hx⟩)
        · exact Or.inl (Or.inl h)
        · exact Or.inl (Or.inr (hb' ▸ hx))
        · exact Or.inr ⟨b', hb', hx⟩

theorem get?_of_mem_enum {α : Type} {l : List α} {p : Nat × α}
    (h : p ∈ l.enum) : l.get? p.1 = some p.2 :=
  List.mem_enum_iff_get?.mp h

theorem snd_mem_of_mem_enum {α : Type} {l : List α} {p : Nat × α}
    (h : p ∈ l.enum) : p.2 ∈ l :=
  List.get?_mem (get?_of_mem_enum h)

/-! ## Helper lemmas: the regex engine -/

theorem startMatch_emp (s : List Char) : startMatch .emp s = false := by
  induction s with
  | nil => rfl
  | cons c cs ih => simp [startMatch, derivR, nullable, ih]

theorem startMatch_eps (s : List Char) : startMatch .eps s = true := by
  cases s <;> simp [startMatch, nullable]

theorem nullable_mkAlt (r1 r2 : Rgx) :
    nullable (mkAlt r1 r2) = (nullable r1 || nullable r2) := by
  cases r1 <;> cases r2 <;> simp [mkAlt, nullable]

theorem startMatch_alt_aux :
    ∀ (s : List Char) (r1 r2 : Rgx),
      startMatch (.alt r1 r2) s =
        (startMatch r1 s || startMatch r2 s) ∧
      startMatch (mkAlt r1 r2) s =
        (startMatch r1 s || startMatch r2 s) := by
  intro s
  induction s with
  | nil =>
      intro r1 r2
      exact ⟨rfl, nullable_mkAlt r1 r2⟩
  | cons c cs ih =>
      intro r1 r2
      have halt : startMatch (.alt r1 r2) (c :: cs) =
          (startMatch r1 (c :: cs) || startMatch r2 (c :: cs)) := by
        show (nullable (.alt r1 r2) ||
            startMatch (mkAlt (derivR r1 c) (derivR r2 c)) cs) = _
        rw [(ih (derivR r1 c) (derivR r2 c)).2]
        simp only [nullable, startMatch]
        cases nullable r1 <;> cases nullable r2 <;>
          cases startMatch (derivR r1 c) cs <;>
          cases startMatch (derivR r2 c) cs <;> rfl
      refine ⟨halt, ?_⟩
      cases r1 <;> cases r2 <;>
        simp_all [mkAlt, startMatch_emp]

theorem startMatch_alt (r1 r2 : Rgx) (s : List Char) :
    startMatch (.alt r1 r2) s =
      (startMatch r1 s || startMatch r2 s) :=
  (startMatch_alt_aux s r1 r2).1

theorem startMatch_mkCat_eps (r : Rgx) (s : List Char) :
    startMatch (mkCat .eps r) s = startMatch r s := by
  cases r <;> rfl

theorem startMatch_clsChain :
    ∀ (ps : List (Char → Bool)) (w rest : List Char),
      List.Forall₂ (fun p c => p c = true) ps w →
      startMatch (clsChain ps) (w ++ rest) = true := by
  intro ps w rest h
  induction h with
  | nil => simpa [clsChain] using startMatch_eps rest
  | cons hpc htail ih =>
      rename_i p c ps' w'
      show startMatch (.cat (.cls p) (clsChain ps')) (c :: (w' ++ rest)) = true
      simp only [startMatch, nullable, Bool.false_and, Bool.false_or,
        derivR, Bool.false_eq_true, if_false, hpc, if_true]
      rw [startMatch_mkCat_eps]
      exact ih

theorem rtest_of_startMatch (r : Rgx) (s : List Char)
    (h : startMatch r s = true) : rtest r s = true := by
  cases s with
  | nil => exact h
  | cons c cs => simp [rtest, h]

theorem rtest_append (r : Rgx) (pre s : List Char)
    (h : rtest r s = true) : rtest r (pre ++ s) = true := by
  induction pre with
  | nil => exact h
  | cons c cs ih => simp [rtest, ih]

theorem forall2_ci (target mid : List Char)
    (h : mid.map lowerAscii = target.map lowerAscii) :
    List.Forall₂ (fun p c => p c = true)
      (target.map (fun c x => lowerAscii x == lowerAscii c)) mid := by
  induction target generalizing mid with
  | nil =>
      simp only [List.map_nil, List.map_eq_nil] at h
      subst h
      exact List.Forall₂.nil
  | cons t ts ih =>
      cases mid with
      | nil => simp at h
      | cons m ms =>
          simp only [List.map_cons, List.cons.injEq] at h
          exact List.Forall₂.cons (by simp [h.1]) (ih ms h.2)

theorem splitLinesAux_no_newline :
    ∀ (s cur : List Char), (∀ c ∈ s, c ≠ '\n') →
      splitLinesAux s cur = [cur.reverse ++ s] := by
  intro s
  induction s with
  | nil => intro cur _; simp [splitLinesAux]
  | cons c cs ih =>
      intro cur h
      have hc : c ≠ '\n' := h c (by simp)
      simp only [splitLinesAux, if_neg hc]
      rw [ih (c :: cur) (fun x hx => h x (by simp [hx]))]
      simp

theorem splitLines_single (line : List Char) (h : '\n' ∉ line) :
    splitLines line = [line] := by
  have := splitLinesAux_no_newline line [] (fun c hc heq => h (heq ▸ hc))
  simpa [splitLines] using this

theorem not_star_of_slashes (t : List Char)
    (h : ("//".data).isPrefixOf t = true) :
    ("*".data).isPrefixOf t = false := by
  cases t with
  | nil => simp [List.isPrefixOf] at h
  | cons c cs =>
      simp only [List.isPrefixOf, Bool.and_eq_true, beq_iff_eq] at h ⊢
      rcases h with ⟨rfl, -⟩
      decide

/-! ## Security scanner claims -/

section ConcreteScans

attribute [local semireducible] Rat.add Rat.sub Rat.mul Rat.inv

set_option maxRecDepth 10000 in
/-- C3: scanning the single line `const password = 'admin12345';` yields
exactly one finding — rule `HARDCODED_PASSWORD`, severity `critical`,
category `secret`, line 1, confidence 0.8, evidence the whole trimmed
line — and no other rule of the fixed rule set matches. -/
theorem scan_password_line_single_finding :
    scanFile loadRules passwordTestLine =
      [⟨"critical", "secret", 1, "Hardcoded Password", passwordTestLine,
        4 / 5, "HARDCODED_PASSWORD", "open"⟩] := by
  decide

/-- C10 counterexample: a line whose only relevant token is the variable
name `repoQueue` contains neither `query` nor `execute`, and the scan of
it produces no finding at all — in particular no `SQL_INJECTION`. -/
theorem scan_repoQueue_line_no_finding :
    scanFile loadRules repoQueueLine = [] := by
  decide

/-- C9 counterexample: `scanFile`/`findMatches` have no `try`/`catch`, so
a rule whose match evaluation faults aborts the entire scan: scanned
together with the faulting rule, the `EVAL_USAGE` finding that `eval(x)`
would produce on its own is lost. -/
theorem scan_fault_not_isolated :
    scanFileE [faultingRule, liftRule evalUsageRule] ("eval(x)".data) =
      .error "match fault" ∧
    scanFile [evalUsageRule] ("eval(x)".data) ≠ [] := by
  exact ⟨rfl, by decide⟩

end ConcreteScans

/-! ### C4: confidence formula, bounds, and evidence truncation -/

/-- C4: every match produced by `findMatches` carries confidence equal to
0.8, minus 0.2 when the line contains a `test`/`spec` marker, minus 0.3
when the trimmed line starts with `//` or `*`, clamped below at 0.3 —
hence in `[0.3, 0.8]` — and evidence equal to the trimmed line truncated
to at most 100 characters. -/
theorem findMatches_confidence_evidence (test : List Char → Bool)
    (content : List Char) :
    ∀ m ∈ findMatches test content,
      ∃ line ∈ splitLines content,
        test line = true ∧
        m.confidence =
          max (3 / 10)
            ((8 : ℚ) / 10 -
              (if containsSub "test".data line || containsSub "spec".data line
                then 2 / 10 else 0) -
              (if ("//".data).isPrefixOf (jsTrim line) ||
                  ("*".data).isPrefixOf (jsTrim line)
                then 3 / 10 else 0)) ∧
        3 / 10 ≤ m.confidence ∧ m.confidence ≤ 8 / 10 ∧
        m.text = (jsTrim line).take 100 ∧ m.text.length ≤ 100 := by
  intro m hm
  rw [findMatches] at hm
  rcases (mem_foldl_append _ _ _ _).mp hm with h | ⟨p, hp, hx⟩
  · simp at h
  rcases htest : test p.2 with _ | _
  · rw [htest] at hx; simp at hx
  rw [htest] at hx
  simp only [if_true, List.mem_singleton] at hx
  subst hx
  refine ⟨p.2, snd_mem_of_mem_enum hp, htest, ?_⟩
  have hconf : lineConfidence p.2 =
      max (3 / 10)
        ((8 : ℚ) / 10 -
          (if containsSub "test".data p.2 || containsSub "spec".data p.2
            then 2 / 10 else 0) -
          (if ("//".data).isPrefixOf (jsTrim p.2) ||
              ("*".data).isPrefixOf (jsTrim p.2)
            then 3 / 10 else 0)) := by
    rw [lineConfidence]
    rcases hA : (containsSub "test".data p.2 || containsSub "spec".data p.2) <;>
      rcases hB : ("//".data).isPrefixOf (jsTrim p.2) <;>
        rcases hC : ("*".data).isPrefixOf (jsTrim p.2)
    all_goals try (rw [not_star_of_slashes _ hB] at hC; exact Bool.noConfusion hC)
    all_goals simp [hA, hB, hC] <;> norm_num
  have hbounds : 3 / 10 ≤ lineConfidence p.2 ∧ lineConfidence p.2 ≤ 8 / 10 := by
    rw [hconf]
    rcases (containsSub "test".data p.2 || containsSub "spec".data p.2) <;>
      rcases ("//".data).isPrefixOf (jsTrim p.2) <;>
        rcases ("*".data).isPrefixOf (jsTrim p.2) <;>
          constructor <;> norm_num
  refine ⟨hconf, hbounds.1, hbounds.2, rfl, ?_⟩
  show ((jsTrim p.2).take 100).length ≤ 100
  rw [List.length_take]
  exact min_le_left _ _

section ConcreteScans2

attribute [local semireducible] Rat.add Rat.sub Rat.mul Rat.inv

/-- Witness for `findMatches_confidence_evidence`: the always-true test on
a one-line content. -/
theorem findMatches_confidence_evidence_witness :
    ∃ line ∈ splitLines "adminPass".data,
      (fun _ : List Char => true) line = true ∧
      (⟨1, "adminPass".data, 4 / 5⟩ : MatchRec).confidence =
        max (3 / 10)
          ((8 : ℚ) / 10 -
            (if containsSub "test".data line || containsSub "spec".data line
              then 2 / 10 else 0) -
            (if ("//".data).isPrefixOf (jsTrim line) ||
                ("*".data).isPrefixOf (jsTrim line)
              then 3 / 10 else 0)) ∧
      3 / 10 ≤ (⟨1, "adminPass".data, 4 / 5⟩ : MatchRec).confidence ∧
      (⟨1, "adminPass".data, 4 / 5⟩ : MatchRec).confidence ≤ 8 / 10 ∧
      (⟨1, "adminPass".data, 4 / 5⟩ : MatchRec).text = (jsTrim line).take 100 ∧
      (⟨1, "adminPass".data, 4 / 5⟩ : MatchRec).text.length ≤ 100 :=
  findMatches_confidence_evidence (fun _ => true) "adminPass".data
    ⟨1, "adminPass".data, 4 / 5⟩ (by decide)

end ConcreteScans2

/-! ### C9: totality of the scan with the built-in rules -/

theorem foldlM_pure_except {α β : Type} (g : α → β → α) (l : List β)
    (acc : α) :
    l.foldlM (fun a b => (pure (g a b) : Except String α)) acc =
      .ok (l.foldl g acc) := by
  induction l generalizing acc with
  | nil => rfl
  | cons b bs ih => simpa [List.foldlM_cons] using ih (g acc b)

theorem findMatchesE_ok (t : List Char → Bool) (content : List Char) :
    findMatchesE (fun s => .ok (t s)) content =
      .ok (findMatches t content) := by
  unfold findMatchesE findMatches
  exact foldlM_pure_except _ _ _

theorem scanFileE_map_liftRule (rules : List SecRule) (content : List Char) :
    scanFileE (rules.map liftRule) content =
      .ok (scanFile rules content) := by
  unfold scanFileE scanFile
  suffices h : ∀ acc : List Finding,
      (rules.map liftRule).foldlM
        (fun acc rule => do
          let ms ← findMatchesE rule.test content
          pure (acc ++ ms.map
            (mkFinding rule.name rule.severity rule.category rule.id)))
        acc =
      .ok (rules.foldl
        (fun acc rule =>
          acc ++ (findMatches rule.test content).map
            (mkFinding rule.name rule.severity rule.category rule.id))
        acc) from h []
  intro acc
  induction rules generalizing acc with
  | nil => rfl
  | cons r rs ih =>
      simp only [List.map_cons, List.foldlM_cons, List.foldl_cons]
      have hfm : findMatchesE (liftRule r).test content =
          .ok (findMatches r.test content) := findMatchesE_ok r.test content
      rw [show (liftRule r).test = fun s => Except.ok (r.test s) from rfl] at hfm
      simp only [liftRule, hfm]
      simpa using ih _

/-- C9 (amended): scanning with the built-in rule set never throws — for
every input string the exception-aware scan succeeds with exactly the
findings of the pure scan. (The original claim's local fault isolation
does not hold: see the counterexample `scan_fault_not_isolated`.) -/
theorem scan_never_throws_builtin (content : List Char) :
    scanFileE (loadRules.map liftRule) content =
      .ok (scanFile loadRules content) :=
  scanFileE_map_liftRule loadRules content

/-! ### C10: the SQL_INJECTION rule fires on any query/execute mention -/

/-- C10 (amended): because `query` and `execute` are top-level
alternatives of the `SQL_INJECTION` pattern, every newline-free line that
contains `query` or `execute` — case-insensitively, in any context —
produces an `SQL_INJECTION` finding at line 1 when scanned on its own
(not only string-concatenating query/execute calls). A line mentioning
only `repoQueue` contains neither substring and is not matched: see
`scan_repoQueue_line_no_finding`. -/
theorem sql_injection_bare_word (line : List Char)
    (hnl : '\n' ∉ line)
    (h : (∃ pre mid suf, line = pre ++ mid ++ suf ∧
            mid.map lowerAscii = "query".data) ∨
         (∃ pre mid suf, line = pre ++ mid ++ suf ∧
            mid.map lowerAscii = "execute".data)) :
    ∃ f ∈ scanFile loadRules line,
      f.rule_id = "SQL_INJECTION" ∧ f.line_number = 1 ∧
      f.severity = "high" ∧ f.category = "vulnerability" := by
  have htest : rtest sqlInjectionPattern line = true := by
    rcases h with ⟨pre, mid, suf, hline, hmap⟩ | ⟨pre, mid, suf, hline, hmap⟩
    · have hap : startMatch (litCI "query") (mid ++ suf) = true :=
        startMatch_clsChain _ mid suf (forall2_ci "query".data mid hmap)
      have halt : startMatch sqlInjectionPattern (mid ++ suf) = true := by
        rw [sqlInjectionPattern, startMatch_alt, startMatch_alt, hap]
        simp
      subst hline
      rw [List.append_assoc]
      exact rtest_append _ pre _ (rtest_of_startMatch _ _ halt)
    · have hap : startMatch (litCI "execute") (mid ++ suf) = true :=
        startMatch_clsChain _ mid suf (forall2_ci "execute".data mid hmap)
      have halt : startMatch sqlInjectionPattern (mid ++ suf) = true := by
        rw [sqlInjectionPattern, startMatch_alt, startMatch_alt,
          startMatch_alt, hap]
        simp
      subst hline
      rw [List.append_assoc]
      exact rtest_append _ pre _ (rtest_of_startMatch _ _ halt)
  refine ⟨mkFinding "Potential SQL Injection" "high" "vulnerability"
      "SQL_INJECTION" ⟨1, (jsTrim line).take 100, lineConfidence line⟩,
    ?_, rfl, rfl, rfl, rfl⟩
  rw [scanFile]
  refine (mem_foldl_append _ _ _ _).mpr (Or.inr
    ⟨⟨"SQL_INJECTION", "Potential SQL Injection", "high", "vulnerability",
        rtest sqlInjectionPattern⟩, ?_, ?_⟩)
  · simp [loadRules]
  · show _ ∈ (findMatches (rtest sqlInjectionPattern) line).map _
    rw [findMatches, splitLines_single line hnl]
    simp only [List.enum, List.enumFrom, List.foldl_cons, List.foldl_nil,
      htest, if_true, List.nil_append, List.map_cons, List.map_nil]
    exact List.mem_singleton.mpr rfl

/-- Witness for `sql_injection_bare_word`: the prose line
`executed the plan`. -/
theorem sql_injection_bare_word_witness :
    ∃ f ∈ scanFile loadRules ("executed the plan".data),
      f.rule_id = "SQL_INJECTION" ∧ f.line_number = 1 ∧
      f.severity = "high" ∧ f.category = "vulnerability" :=
  sql_injection_bare_word ("executed the plan".data) (by decide)
    (Or.inr ⟨[], "execute".data, "d the plan".data, by decide, by decide⟩)

/-! ## Helper lemmas: counting, sorting and the greedy loop -/

theorem sumCounts_nil : sumCounts [] = 0 := rfl

theorem sumCounts_cons (p : String × Nat) (l : List (String × Nat)) :
    sumCounts (p :: l) = p.2 + sumCounts l := by
  simp [sumCounts]

theorem sumCounts_bumpCount (m : List (String × Nat)) (k : String) :
    sumCounts (bumpCount m k) = sumCounts m + 1 := by
  induction m with
  | nil => simp [bumpCount, sumCounts]
  | cons e rest ih =>
      rcases e with ⟨k0, v⟩
      by_cases h : k0 = k
      · simp only [bumpCount, if_pos h, sumCounts_cons]
        omega
      · simp only [bumpCount, if_neg h, sumCounts_cons, ih]
        omega

theorem bumpCount_ne_nil (m : List (String × Nat)) (k : String) :
    bumpCount m k ≠ [] := by
  cases m with
  | nil => simp [bumpCount]
  | cons e rest =>
      rcases e with ⟨k0, v⟩
      by_cases h : k0 = k <;> simp [bumpCount, h]

theorem bumpCount_single_same (a : String) (n : Nat) :
    bumpCount [(a, n)] a = [(a, n + 1)] := by
  simp [bumpCount]

theorem insertByCountDesc_ne_nil (x : String × Nat)
    (l : List (String × Nat)) : insertByCountDesc x l ≠ [] := by
  cases l with
  | nil => simp [insertByCountDesc]
  | cons y ys => by_cases h : y.2 ≤ x.2 <;> simp [insertByCountDesc, h]

theorem sortByCountDesc_ne_nil (l : List (String × Nat)) (h : l ≠ []) :
    sortByCountDesc l ≠ [] := by
  cases l with
  | nil => exact absurd rfl h
  | cons x xs => exact insertByCountDesc_ne_nil x (sortByCountDesc xs)

theorem sumCounts_insertByCountDesc (x : String × Nat)
    (l : List (String × Nat)) :
    sumCounts (insertByCountDesc x l) = x.2 + sumCounts l := by
  induction l with
  | nil => simp [insertByCountDesc, sumCounts]
  | cons y ys ih =>
      by_cases h : y.2 ≤ x.2
      · simp only [insertByCountDesc, if_pos h, sumCounts_cons]
      · simp only [insertByCountDesc, if_neg h, sumCounts_cons, ih]
        omega

theorem sumCounts_sortByCountDesc (l : List (String × Nat)) :
    sumCounts (sortByCountDesc l) = sumCounts l := by
  induction l with
  | nil => rfl
  | cons x xs ih =>
      simp only [sortByCountDesc, sumCounts_insertByCountDesc, ih,
        sumCounts_cons]

theorem foldl_bumpCount_sum (files : List Ownership) :
    ∀ m, sumCounts
        (files.foldl (fun m f => bumpCount m f.primary_author) m) =
      sumCounts m + files.length := by
  induction files with
  | nil => intro m; simp
  | cons f rest ih =>
      intro m
      simp only [List.foldl_cons, List.length_cons, ih,
        sumCounts_bumpCount]
      omega

theorem foldl_bumpCount_ne_nil (files : List Ownership) :
    ∀ m : List (String × Nat), (m ≠ [] ∨ files ≠ []) →
      files.foldl (fun m f => bumpCount m f.primary_author) m ≠ [] := by
  induction files with
  | nil =>
      intro m h
      rcases h with h | h
      · exact h
      · exact absurd rfl h
  | cons f rest ih =>
      intro m _
      exact ih (bumpCount m f.primary_author)
        (Or.inl (bumpCount_ne_nil m f.primary_author))

theorem busLoop_cov (total : Nat) :
    ∀ (l : List (String × Nat)) (cov bf : Nat),
      cov + sumCounts l = total →
      total ≤ 2 * (busLoop total l cov bf).1 := by
  intro l
  induction l with
  | nil =>
      intro cov bf h
      simp only [busLoop]
      simp [sumCounts] at h
      omega
  | cons p rest ih =>
      rcases p with ⟨s, c⟩
      intro cov bf h
      rw [sumCounts_cons] at h
      simp only [busLoop]
      split
      · next hbrk => exact hbrk
      · exact ih (cov + c) (bf + 1) (by omega)

theorem busLoop_bf_ge (total : Nat) :
    ∀ (l : List (String × Nat)) (cov bf : Nat),
      bf ≤ (busLoop total l cov bf).2 := by
  intro l
  induction l with
  | nil => intro cov bf; simp [busLoop]
  | cons p rest ih =>
      rcases p with ⟨s, c⟩
      intro cov bf
      simp only [busLoop]
      split
      · exact Nat.le_succ bf
      · exact le_trans (Nat.le_succ bf) (ih (cov + c) (bf + 1))

theorem busLoop_bf_pos (total : Nat) (l : List (String × Nat))
    (cov bf : Nat) (h : l ≠ []) :
    bf + 1 ≤ (busLoop total l cov bf).2 := by
  cases l with
  | nil => exact absurd rfl h
  | cons p rest =>
      rcases p with ⟨s, c⟩
      simp only [busLoop]
      split
      · exact le_refl _
      · exact busLoop_bf_ge total rest (cov + c) (bf + 1)

theorem jsRound_mono {x y : ℚ} (h : x ≤ y) : jsRound x ≤ jsRound y :=
  Int.floor_le_floor (by linarith)

theorem jsRound_ten : jsRound 10 = 10 := by
  rw [jsRound, show (10 : ℚ) + 1 / 2 = 21 / 2 by norm_num,
    Int.floor_eq_iff]
  norm_num

/-! ## Helper lemmas: the ownership table under a single author -/

/-- Every per-file author map of the table lists exactly the one author. -/
def singleAuthorTable (a : String)
    (fa : List (String × List (String × Nat))) : Prop :=
  ∀ e ∈ fa, ∃ k, e.2 = [(a, k)]

theorem addFileCommit_single (a f : String) :
    ∀ fa, singleAuthorTable a fa →
      singleAuthorTable a (addFileCommit fa f a) := by
  intro fa
  induction fa with
  | nil =>
      intro _ e he
      simp only [addFileCommit, List.mem_singleton] at he
      subst he
      exact ⟨1, rfl⟩
  | cons p rest ih =>
      intro h e he
      rcases p with ⟨f0, m⟩
      simp only [addFileCommit] at he
      by_cases hf : f0 = f
      · rw [if_pos hf] at he
        rcases List.mem_cons.mp he with rfl | hmem
        · obtain ⟨k, hk⟩ := h (f0, m) (by simp)
          refine ⟨k + 1, ?_⟩
          show bumpCount m a = [(a, k + 1)]
          rw [show m = [(a, k)] from hk, bumpCount_single_same]
        · exact h e (by simp [hmem])
      · rw [if_neg hf] at he
        rcases List.mem_cons.mp he with rfl | hmem
        · exact h (f0, m) (by simp)
        · exact ih (fun x hx => h x (by simp [hx])) e hmem

theorem foldl_addFile_single (a : String) (files : List String) :
    ∀ fa, singleAuthorTable a fa →
      singleAuthorTable a
        (files.foldl (fun fa f => addFileCommit fa f a) fa) := by
  induction files with
  | nil => intro fa h; exact h
  | cons f rest ih =>
      intro fa h
      exact ih (addFileCommit fa f a) (addFileCommit_single a f fa h)

theorem fileAuthorsOf_single (a : String) (commits : List Commit)
    (hone : ∀ c ∈ commits, c.author = a) :
    singleAuthorTable a (fileAuthorsOf commits) := by
  rw [fileAuthorsOf]
  suffices h : ∀ fa, singleAuthorTable a fa →
      singleAuthorTable a (commits.foldl
        (fun fa c =>
          (c.files.filter (fun f => isCodeFile f)).foldl
            (fun fa f => addFileCommit fa f c.author) fa)
        fa) from h [] (by intro e he; simp at he)
  induction commits with
  | nil => intro fa h; exact h
  | cons c cs ih =>
      intro fa h
      have hca : c.author = a := hone c (by simp)
      refine ih (fun x hx => hone x (by simp [hx])) _ ?_
      show singleAuthorTable a
        ((c.files.filter (fun f => isCodeFile f)).foldl
          (fun fa f => addFileCommit fa f c.author) fa)
      rw [hca]
      exact foldl_addFile_single a _ fa h

theorem addFileCommit_ne_nil (fa : List (String × List (String × Nat)))
    (f au : String) : addFileCommit fa f au ≠ [] := by
  cases fa with
  | nil => simp [addFileCommit]
  | cons p rest =>
      rcases p with ⟨f0, m⟩
      by_cases h : f0 = f <;> simp [addFileCommit, h]

theorem foldl_addFile_ne_nil (au : String) (files : List String) :
    ∀ fa, fa ≠ [] →
      files.foldl (fun fa f => addFileCommit fa f au) fa ≠ [] := by
  induction files with
  | nil => intro fa h; exact h
  | cons f rest ih =>
      intro fa _
      exact ih (addFileCommit fa f au) (addFileCommit_ne_nil fa f au)

theorem foldl_addFile_ne_nil_of_files (au : String) (files : List String)
    (fa : List (String × List (String × Nat))) (h : files ≠ []) :
    files.foldl (fun fa f => addFileCommit fa f au) fa ≠ [] := by
  cases files with
  | nil => exact absurd rfl h
  | cons f rest =>
      exact foldl_addFile_ne_nil au rest _ (addFileCommit_ne_nil fa f au)

theorem fileAuthorsOf_ne_nil (commits : List Commit)
    (h : ∃ c ∈ commits, ∃ f ∈ c.files, isCodeFile f = true) :
    fileAuthorsOf commits ≠ [] := by
  rw [fileAuthorsOf]
  suffices hgen : ∀ fa,
      ((∃ c ∈ commits, ∃ f ∈ c.files, isCodeFile f = true) ∨ fa ≠ []) →
      commits.foldl
        (fun fa c =>
          (c.files.filter (fun f => isCodeFile f)).foldl
            (fun fa f => addFileCommit fa f c.author) fa)
        fa ≠ [] from hgen [] (Or.inl h)
  clear h
  induction commits with
  | nil =>
      intro fa h
      rcases h with ⟨c, hc, -⟩ | h
      · simp at hc
      · exact h
  | cons c cs ih =>
      intro fa h
      simp only [List.foldl_cons]
      rcases h with ⟨c', hc', f, hf, hcode⟩ | hne
      · rcases List.mem_cons.mp hc' with rfl | hmem
        · refine ih _ (Or.inr ?_)
          refine foldl_addFile_ne_nil_of_files c'.author _ fa ?_
          exact List.ne_nil_of_mem (List.mem_filter.mpr ⟨hf, hcode⟩)
        · exact ih _ (Or.inl ⟨c', hmem, f, hf, hcode⟩)
      · refine ih _ (Or.inr ?_)
        show (c.files.filter (fun f => isCodeFile f)).foldl
            (fun fa f => addFileCommit fa f c.author) fa ≠ []
        rcases heq : c.files.filter (fun f => isCodeFile f) with _ | ⟨x, xs⟩
        · simpa [heq] using hne
        · exact foldl_addFile_ne_nil_of_files c.author _ fa (by simp)

theorem calculateFileOwnership_single (a : String) (commits : List Commit)
    (hone : ∀ c ∈ commits, c.author = a) :
    ∀ o ∈ (calculateFileOwnership commits).map (·.2),
      o.primary_author = a := by
  intro o ho
  rcases List.mem_map.mp ho with ⟨e, he, rfl⟩
  rcases List.mem_map.mp he with ⟨fm, hfm, rfl⟩
  obtain ⟨k, hk⟩ := fileAuthorsOf_single a commits hone fm hfm
  show (mkOwnership fm.2).primary_author = a
  rw [hk]
  rfl

theorem foldl_bumpCount_const (a : String) :
    ∀ (fs : List Ownership), (∀ f ∈ fs, f.primary_author = a) →
      ∀ n, fs.foldl (fun m f => bumpCount m f.primary_author) [(a, n)] =
        [(a, n + fs.length)] := by
  intro fs
  induction fs with
  | nil => intro _ n; simp
  | cons f rest ih =>
      intro h n
      simp only [List.foldl_cons, h f (by simp), bumpCount_single_same]
      rw [ih (fun g hg => h g (by simp [hg])) (n + 1)]
      have : n + 1 + rest.length = n + (f :: rest).length := by
        simp; omega
      rw [this]

theorem foldl_bumpCount_const_of_ne_nil (a : String) (fs : List Ownership)
    (hne : fs ≠ []) (h : ∀ f ∈ fs, f.primary_author = a) :
    fs.foldl (fun m f => bumpCount m f.primary_author) [] =
      [(a, fs.length)] := by
  cases fs with
  | nil => exact absurd rfl hne
  | cons f rest =>
      simp only [List.foldl_cons]
      rw [show bumpCount [] f.primary_author = [(f.primary_author, 1)]
          from rfl, h f (by simp),
        foldl_bumpCount_const a rest (fun g hg => h g (by simp [hg])) 1]
      have : 1 + rest.length = (f :: rest).length := by simp; omega
      rw [this]

theorem busLoop_singleton (a : String) (n : Nat) :
    busLoop n [(a, n)] 0 0 = (n, 1) := by
  simp only [busLoop]
  rw [if_pos (by omega)]
  simp

/-- A one-author ownership table always produces bus factor exactly 1 and
risk level CRITICAL. -/
theorem calculateBusFactor_of_const (a : String)
    (fo : List (String × Ownership)) (hne : fo ≠ [])
    (hpa : ∀ o ∈ fo.map (·.2), o.primary_author = a) :
    calculateBusFactor fo = ⟨1, "CRITICAL"⟩ := by
  have hn0 : ¬((fo.map (·.2)).length = 0) := by
    simpa [List.length_eq_zero, List.map_eq_nil] using hne
  have hfconst : (fo.map (·.2)).foldl
      (fun m f => bumpCount m f.primary_author) [] =
      [(a, (fo.map (·.2)).length)] := by
    refine foldl_bumpCount_const_of_ne_nil a _ ?_ hpa
    simpa [List.map_eq_nil] using hne
  have hsort : sortByCountDesc [(a, (fo.map (·.2)).length)] =
      [(a, (fo.map (·.2)).length)] := rfl
  have hcast : ((fo.map (·.2)).length : ℚ) ≠ 0 := Nat.cast_ne_zero.mpr hn0
  simp only [calculateBusFactor, hfconst, hsort,
    busLoop_singleton a (fo.map (·.2)).length]
  rw [if_neg hn0]
  rw [show ((fo.map (·.2)).length : ℚ) / ((fo.map (·.2)).length : ℚ) = 1
    from div_self hcast]
  rw [if_neg (by norm_num : ¬((1 : ℚ) < 3 / 5))]
  have hbf : ((1 : Nat) : ℚ) + 0 = 1 := by norm_num
  rw [hbf]
  rw [if_pos (by norm_num : (1 : ℚ) ≤ 3 / 2)]
  rw [show (1 : ℚ) * 10 = 10 by norm_num, jsRound_ten]
  norm_num

/-- C2: a commit log in which exactly one author appears, touching at
least one code file, yields bus-factor score ≤ 1.5 (in fact exactly 1)
and risk level CRITICAL. -/
theorem busFactor_single_author (a : String) (commits : List Commit)
    (hone : ∀ c ∈ commits, c.author = a)
    (hcode : ∃ c ∈ commits, ∃ f ∈ c.files, isCodeFile f = true) :
    (calculateBusFactor (calculateFileOwnership commits)).score ≤ 3 / 2 ∧
    (calculateBusFactor (calculateFileOwnership commits)).riskLevel =
      "CRITICAL" := by
  have hne : calculateFileOwnership commits ≠ [] := by
    rw [calculateFileOwnership]
    simpa [List.map_eq_nil] using fileAuthorsOf_ne_nil commits hcode
  have hmain := calculateBusFactor_of_const a
    (calculateFileOwnership commits) hne
    (calculateFileOwnership_single a commits hone)
  rw [hmain]
  exact ⟨by norm_num, rfl⟩

/-- Witness for `busFactor_single_author`: a one-commit log by `alice`
touching `a.js`. -/
theorem busFactor_single_author_witness :
    (calculateBusFactor
        (calculateFileOwnership [⟨"alice", ["a.js"]⟩])).score ≤ 3 / 2 ∧
    (calculateBusFactor
        (calculateFileOwnership [⟨"alice", ["a.js"]⟩])).riskLevel =
      "CRITICAL" :=
  busFactor_single_author "alice" [⟨"alice", ["a.js"]⟩]
    (by intro c hc; simp at hc; rw [hc])
    ⟨⟨"alice", ["a.js"]⟩, by simp, "a.js", by simp, by decide⟩

/-! ### C6: the bus-factor score is 0 or at least 1 -/

theorem fileAuthorsOf_nil_of_no_code (commits : List Commit)
    (h : ∀ c ∈ commits, ∀ f ∈ c.files, isCodeFile f = false) :
    fileAuthorsOf commits = [] := by
  rw [fileAuthorsOf]
  suffices hg : ∀ fa, commits.foldl
      (fun fa c =>
        (c.files.filter (fun f => isCodeFile f)).foldl
          (fun fa f => addFileCommit fa f c.author) fa)
      fa = fa from hg []
  induction commits with
  | nil => intro fa; rfl
  | cons c cs ih =>
      intro fa
      simp only [List.foldl_cons]
      have hfilter : c.files.filter (fun f => isCodeFile f) = [] := by
        rw [List.filter_eq_nil]
        intro f hf
        simp [h c (by simp) f hf]
      have hstep : (c.files.filter (fun f => isCodeFile f)).foldl
          (fun fa f => addFileCommit fa f c.author) fa = fa := by
        rw [hfilter]
        rfl
      rw [hstep]
      exact ih (fun x hx => h x (by simp [hx])) fa

theorem score_ge_one_of (bf : Nat) (cq : ℚ) (hbf : 1 ≤ bf)
    (hcq : 1 / 2 ≤ cq) :
    1 ≤ ((jsRound (((bf : ℚ) +
        (if cq < 3 / 5 then (1 / 2 - (cq - 1 / 2)) * 2 else 0)) * 10) :
        ℤ) : ℚ) / 10 := by
  have h1 : (1 : ℚ) ≤ (bf : ℚ) := by exact_mod_cast hbf
  have hbfq : (1 : ℚ) ≤ (bf : ℚ) +
      (if cq < 3 / 5 then (1 / 2 - (cq - 1 / 2)) * 2 else 0) := by
    split
    · next hlt => nlinarith
    · linarith
  have h10 : (10 : ℚ) ≤ ((bf : ℚ) +
      (if cq < 3 / 5 then (1 / 2 - (cq - 1 / 2)) * 2 else 0)) * 10 := by
    nlinarith
  have hmono := jsRound_mono h10
  rw [jsRound_ten] at hmono
  have hq : (10 : ℚ) ≤ ((jsRound (((bf : ℚ) +
      (if cq < 3 / 5 then (1 / 2 - (cq - 1 / 2)) * 2 else 0)) * 10) :
      ℤ) : ℚ) := by exact_mod_cast hmono
  linarith

theorem calculateBusFactor_pos (fo : List (String × Ownership))
    (hne : fo ≠ []) :
    (fo.map (·.2)).length ≤ 2 * busLoopCovered fo ∧
    (coverageQ fo < 3 / 5 →
      4 / 5 < (1 / 2 - (coverageQ fo - 1 / 2)) * 2 ∧
      (1 / 2 - (coverageQ fo - 1 / 2)) * 2 ≤ 1) ∧
    1 ≤ (calculateBusFactor fo).score := by
  have hN0 : (fo.map (·.2)).length ≠ 0 := by
    simpa [List.length_eq_zero, List.map_eq_nil] using hne
  have hNpos : (0 : ℚ) < ((fo.map (·.2)).length : ℚ) := by
    exact_mod_cast Nat.pos_of_ne_zero hN0
  have hsum : sumCounts (sortByCountDesc
      ((fo.map (·.2)).foldl (fun m f => bumpCount m f.primary_author) [])) =
      (fo.map (·.2)).length := by
    rw [sumCounts_sortByCountDesc, foldl_bumpCount_sum]
    simp [sumCounts]
  have hcov : (fo.map (·.2)).length ≤ 2 * busLoopCovered fo := by
    rw [busLoopCovered]
    exact busLoop_cov _ _ 0 0 (by omega)
  have hcovQ : ((fo.map (·.2)).length : ℚ) ≤ 2 * (busLoopCovered fo : ℚ) := by
    exact_mod_cast hcov
  have hhalf : 1 / 2 ≤ coverageQ fo := by
    rw [coverageQ, le_div_iff hNpos]
    linarith
  refine ⟨hcov, fun hlt => ⟨by linarith, by linarith⟩, ?_⟩
  have hSne : sortByCountDesc
      ((fo.map (·.2)).foldl (fun m f => bumpCount m f.primary_author) []) ≠
      [] := by
    apply sortByCountDesc_ne_nil
    exact foldl_bumpCount_ne_nil _ []
      (Or.inr (by simpa [List.map_eq_nil] using hne))
  have hbf1 : 1 ≤ (busLoop (fo.map (·.2)).length
      (sortByCountDesc
        ((fo.map (·.2)).foldl (fun m f => bumpCount m f.primary_author) []))
      0 0).2 :=
    busLoop_bf_pos _ _ 0 0 hSne
  have hkey := score_ge_one_of _ _ hbf1 hhalf
  simp only [calculateBusFactor]
  rw [if_neg hN0]
  exact hkey

/-- C6: the bus-factor score is never negative — it is `0` with risk level
`UNKNOWN` exactly when no code file is touched, and otherwise the greedy
loop stops with coverage ≥ 1/2, the fractional adjustment (applied only
when coverage < 0.6) lies in `(0.8, 1]`, and the rounded score is at
least 1. -/
theorem busFactor_score_floor (commits : List Commit) :
    0 ≤ (calculateBusFactor (calculateFileOwnership commits)).score ∧
    ((∀ c ∈ commits, ∀ f ∈ c.files, isCodeFile f = false) →
      calculateBusFactor (calculateFileOwnership commits) =
        ⟨0, "UNKNOWN"⟩) ∧
    (calculateFileOwnership commits ≠ [] →
      ((calculateFileOwnership commits).map (·.2)).length ≤
        2 * busLoopCovered (calculateFileOwnership commits) ∧
      (coverageQ (calculateFileOwnership commits) < 3 / 5 →
        4 / 5 <
          (1 / 2 -
            (coverageQ (calculateFileOwnership commits) - 1 / 2)) * 2 ∧
        (1 / 2 -
          (coverageQ (calculateFileOwnership commits) - 1 / 2)) * 2 ≤ 1) ∧
      1 ≤ (calculateBusFactor (calculateFileOwnership commits)).score) := by
  refine ⟨?_, ?_, fun hne => calculateBusFactor_pos _ hne⟩
  · by_cases h : calculateFileOwnership commits = []
    · rw [h]
      norm_num [calculateBusFactor]
    · linarith [(calculateBusFactor_pos _ h).2.2]
  · intro hno
    rw [calculateFileOwnership, fileAuthorsOf_nil_of_no_code commits hno]
    rfl

section ConcreteBusFactor

attribute [local semireducible] Rat.add Rat.sub Rat.mul Rat.inv

/-- Witness for `busFactor_score_floor`: a log touching only `README.md`
scores `0`/`UNKNOWN`; a log touching `a.js` scores at least 1. -/
theorem busFactor_score_floor_witness :
    calculateBusFactor (calculateFileOwnership [⟨"bob", ["README.md"]⟩]) =
      ⟨0, "UNKNOWN"⟩ ∧
    1 ≤ (calculateBusFactor
        (calculateFileOwnership [⟨"alice", ["a.js"]⟩])).score :=
  ⟨(busFactor_score_floor [⟨"bob", ["README.md"]⟩]).2.1 (by decide),
   ((busFactor_score_floor [⟨"alice", ["a.js"]⟩]).2.2 (by decide)).2.2⟩

end ConcreteBusFactor

/-! ### C5: extracted entities have ordered lines and complexity ≥ 1 -/

/-- For every well-formed forest, every record pushed by
`extractFunctions` has ordered 1-indexed lines. -/
theorem extractForest_lines :
    ∀ fs : TSForest, wfForest fs = true →
      ∀ f ∈ extractForest fs, f.start_line ≤ f.end_line
  | .nil => by
      intro _ f hf
      simp [extractForest] at hf
  | .cons (.mk t s e cs) rest => by
      intro hwf f hf
      simp only [wfForest, wfNode, Bool.and_eq_true,
        decide_eq_true_eq] at hwf
      obtain ⟨⟨hse, hcs⟩, hrest⟩ := hwf
      simp only [extractForest, extractFunctionsNode,
        List.mem_append] at hf
      rcases hf with ((hfn | hfk) | hfc) | hfr
      · by_cases hft : isFunctionKind t = true
        · rw [if_pos hft] at hfn
          rcases List.mem_singleton.mp hfn with rfl
          show s + 1 ≤ e + 1
          omega
        · rw [if_neg hft] at hfn
          simp at hfn
      · by_cases hct : isClassKind t = true
        · rw [if_pos hct] at hfk
          rcases List.mem_singleton.mp hfk with rfl
          show s + 1 ≤ e + 1
          omega
        · rw [if_neg hct] at hfk
          simp at hfk
      · exact extractForest_lines cs hcs f hfc
      · exact extractForest_lines rest hrest f hfr

/-- C5: for every well-formed parse tree, every extracted entity record
satisfies `start_line ≤ end_line` (1-indexed) and `complexity_score ≥ 1`
(function complexity starts at 1 and is only incremented by the
conditional / loop / switch / catch / logical-operator node kinds counted
in `complexityBump`; class records fall back to 1 via `|| 1`). -/
theorem extracted_entities_wf (root : TSNode) (hwf : wfNode root = true) :
    ∀ ent ∈ extractFromFile root,
      ent.start_line ≤ ent.end_line ∧ 1 ≤ ent.complexity_score := by
  intro ent hent
  rw [extractFromFile] at hent
  rcases List.mem_map.mp hent with ⟨f, hf, rfl⟩
  have hlines : f.start_line ≤ f.end_line := by
    refine extractForest_lines (.cons root .nil) ?_ f ?_
    · simp [wfForest, hwf]
    · simp [extractForest, hf]
  refine ⟨hlines, ?_⟩
  show 1 ≤ (match f.complexity with
    | some k => if k = 0 then 1 else k
    | none => 1)
  rcases hc : f.complexity with _ | k
  · simp
  · by_cases hk : k = 0 <;> simp [hk]
    omega

/-- Witness for `extracted_entities_wf`: the function record (with one
`if`, so complexity 2) extracted from a concrete parse tree. -/
theorem extracted_entities_wf_witness :
    (⟨"function", 2, 4, 2⟩ : EntityRec).start_line ≤
      (⟨"function", 2, 4, 2⟩ : EntityRec).end_line ∧
    1 ≤ (⟨"function", 2, 4, 2⟩ : EntityRec).complexity_score :=
  extracted_entities_wf
    (TSNode.mk "program" 0 6
      (.cons (TSNode.mk "function_declaration" 1 3
          (.cons (TSNode.mk "if_statement" 2 2 .nil) .nil))
        (.cons (TSNode.mk "class" 4 6 .nil) .nil)))
    (by decide)
    ⟨"function", 2, 4, 2⟩
    (by decide)

/-! ### C7: clone-directory cleanup -/

/-- C7 counterexample: when `getCodeFiles` throws after a successful
clone, `ingestRepository` propagates the error with the temporary clone
directory still present — the `catch` block does not remove it. -/
theorem ingest_error_leaves_clone_dir :
    ingestRepository ⟨true, true, false, true⟩ =
      ⟨.error "glob failed", true⟩ := rfl

/-- C7 (amended): the temporary clone directory is removed before
`ingestRepository` returns only on the success path, and only when the
final `fs.rm` itself succeeds (its failure is swallowed); a failed clone
leaves no directory behind; an error thrown after a successful clone
leaves the directory in place. -/
theorem ingest_cleanup_success_path_only (env : IngestEnv) :
    ((ingestRepository env).outcome = .ok → env.rmOk = true →
      (ingestRepository env).cloneDirPresent = false) ∧
    (env.cloneOk = false →
      (ingestRepository env).cloneDirPresent = false) ∧
    (env.repoFound = true → env.cloneOk = true → env.listOk = false →
      (ingestRepository env).outcome = .error "glob failed" ∧
      (ingestRepository env).cloneDirPresent = true) := by
  rcases env with ⟨rf, co, lo, rm⟩
  rcases rf <;> rcases co <;> rcases lo <;> rcases rm <;> decide

/-- Witness for `ingest_cleanup_success_path_only` at the environment
where listing the cloned files fails. -/
theorem ingest_cleanup_success_path_only_witness :
    (ingestRepository ⟨true, true, false, true⟩).outcome =
      .error "glob failed" ∧
    (ingestRepository ⟨true, true, false, true⟩).cloneDirPresent = true :=
  (ingest_cleanup_success_path_only ⟨true, true, false, true⟩).2.2
    rfl rfl rfl

/-! ### C8: file-size cap and stored-content truncation -/

/-- C8: a stored record always originates from a readable file whose
content had length ≤ 100000; the stored content is the 50000-char prefix
of the original (hence a prefix of length ≤ 50000). A discovered file
whose content exceeds the 100000-char cap is skipped entirely: no stored
record carries its index. -/
theorem storeLoop_cap (files : List SrcFile) :
    (∀ r ∈ storeLoop files,
      ∃ f, files.get? r.idx = some f ∧ ∃ c, f.content = some c ∧
        c.length ≤ 100000 ∧ r.content = c.take 50000 ∧
        r.content.length ≤ 50000 ∧ ∃ n, r.content = c.take n) ∧
    (∀ i f c, files.get? i = some f → f.content = some c →
      100000 < c.length → ∀ r ∈ storeLoop files, r.idx ≠ i) := by
  have hdecomp : ∀ r ∈ storeLoop files,
      ∃ p ∈ files.enum, ∃ c, p.2.content = some c ∧
        ¬(c.length = 0 ∨ 100000 < c.length) ∧
        r = ⟨p.1, p.2.path, c.take 50000⟩ := by
    intro r hr
    rw [storeLoop] at hr
    rcases (mem_foldl_append _ _ _ _).mp hr with h | ⟨p, hp, hx⟩
    · simp at h
    rcases hcont : p.2.content with _ | c
    · rw [hcont] at hx
      simp at hx
    rw [hcont] at hx
    have hx2 : r ∈ (if c.length = 0 ∨ 100000 < c.length
        then ([] : List StoredFile)
        else [⟨p.1, p.2.path, c.take 50000⟩]) := hx
    by_cases hbig : c.length = 0 ∨ 100000 < c.length
    · rw [if_pos hbig] at hx2
      simp at hx2
    · rw [if_neg hbig] at hx2
      exact ⟨p, hp, c, hcont, hbig, List.mem_singleton.mp hx2⟩
  constructor
  · intro r hr
    obtain ⟨p, hp, c, hcont, hbig, rfl⟩ := hdecomp r hr
    push_neg at hbig
    refine ⟨p.2, get?_of_mem_enum hp, c, hcont, by omega, rfl, ?_,
      ⟨50000, rfl⟩⟩
    show (c.take 50000).length ≤ 50000
    rw [List.length_take]
    exact min_le_left _ _
  · intro i f c hg hc hbig r hr hidx
    obtain ⟨p, hp, c2, hcont, hb2, rfl⟩ := hdecomp r hr
    have hpi : p.1 = i := hidx
    have hgp := get?_of_mem_enum hp
    rw [hpi, hg] at hgp
    have hpf : p.2 = f := by injection hgp with h; exact h.symm
    rw [hpf, hc] at hcont
    have hcc : c2 = c := by injection hcont with h; exact h.symm
    rw [hcc] at hb2
    push_neg at hb2
    omega

/-- Witness for `storeLoop_cap`: the record stored for a small readable
file. -/
theorem storeLoop_cap_witness :
    ∃ f, [(⟨"ok.js", some ('b' :: 'c' :: [])⟩ : SrcFile)].get?
        (⟨0, "ok.js", 'b' :: 'c' :: []⟩ : StoredFile).idx = some f ∧
      ∃ c, f.content = some c ∧ c.length ≤ 100000 ∧
        (⟨0, "ok.js", 'b' :: 'c' :: []⟩ : StoredFile).content =
          c.take 50000 ∧
        (⟨0, "ok.js", 'b' :: 'c' :: []⟩ : StoredFile).content.length ≤
          50000 ∧
        ∃ n, (⟨0, "ok.js", 'b' :: 'c' :: []⟩ : StoredFile).content =
          c.take n :=
  (storeLoop_cap [⟨"ok.js", some ('b' :: 'c' :: [])⟩]).1
    ⟨0, "ok.js", 'b' :: 'c' :: []⟩ (by decide)

end SecondCTO
